import Mathlib

/-!
Verification of the split-operator propagation engine.

This file shallowly embeds the Rust sources of the repository
(`src/propagation.rs`, `src/wave_function.rs`, `src/change_observer.rs`,
`src/leak_control.rs`, `src/loss_checker.rs`, `src/time_grid.rs`,
`src/grid.rs`, `src/propagator/...`) into Lean and settles the frozen
claims about them.  `f64` values are idealised as real numbers and
`Complex64` as `ℂ`; `ndarray` tensors become functions on finite index
types; dynamic trait objects become either closed inductive types covering
the implementations present in the repository or abstract functions.
-/

namespace SplitOp

/-! ## Symbolic operation stack and the event trace of `Propagation::step`

`Propagation::step` (propagation.rs, lines 135-193) dispatches on the
`Operations` enum.  For claim C1 only the dispatch structure matters, so the
operations are represented symbolically (each carries an identifier) and the
step is embedded as the list of events it emits, in execution order.
`config` is the `Apply` bit-flag set of control.rs (`FirstHalf = 1`,
`SecondHalf = 2`). -/

inductive OperationsTag : Type
  | propagator (id : Nat)
  | diagonalization (id : Nat) (diagonalizationFirst : Bool)
  | saver (id : Nat) (firstHalf : Bool)
  | control (id : Nat) (config : Nat)
  deriving DecidableEq, Repr

inductive Event : Type
  | applied (id : Nat)
  | diagonalized (id : Nat)
  | inverseDiagonalized (id : Nat)
  | monitored (id : Nat)
  | firstHalfApplied (id : Nat)
  | secondHalfApplied (id : Nat)
  deriving DecidableEq, Repr

/-- Events emitted for one operation during the forward sweep of
`Propagation::step` (the first `for` loop). -/
def forwardEvents : OperationsTag → List Event
  | .propagator i => [.applied i]
  | .diagonalization i first => if first then [.diagonalized i] else [.inverseDiagonalized i]
  | .saver i firstHalf => if firstHalf then [.monitored i] else []
  | .control i config => if config &&& 1 ≠ 0 then [.firstHalfApplied i] else []

/-- Events emitted for one operation during the reverse sweep of
`Propagation::step` (the second `for` loop, over
`operations.iter().rev().skip(1)`). -/
def reverseEvents : OperationsTag → List Event
  | .propagator i => [.applied i]
  | .diagonalization i first => if first then [.inverseDiagonalized i] else [.diagonalized i]
  | .saver i firstHalf => if !firstHalf then [.monitored i] else []
  | .control i config => if config &&& 2 ≠ 0 then [.secondHalfApplied i] else []

/-- The full event trace of one call to `Propagation::step`: the forward
sweep over the stack in order, then the reverse sweep over the reversed
stack with its first element (the last element of the forward order)
skipped. -/
def stepEvents (ops : List OperationsTag) : List Event :=
  (ops.map forwardEvents).flatten ++ ((ops.reverse.drop 1).map reverseEvents).flatten

/-! ## Wave function, change observer and weight-amplitude cache

Embedding of `wave_function.rs` and `change_observer.rs`.  The rank-`n`
complex tensor is a function on the dependent product of the per-axis index
types, so `grids[k].nodes_no == array.shape[k]` is enforced by typing.  A
per-axis grid carries the fields of `grid.rs` that the wave function reads
(name, nodes, weights); the quadrature weights of axis `k` have length
`shape k` by construction. -/

structure GridAxis (m : ℕ) where
  name : String
  nodes : Fin m → ℝ
  weights : Fin m → ℝ

/-- `ChangeObserver` of change_observer.rs. -/
structure ChangeObserver where
  lastGridNames : List String
  lastNorm : ℝ
  possibleNormChange : Bool

/-- `ChangeObserver::new`. -/
def ChangeObserver.new (names : List String) : ChangeObserver :=
  { lastGridNames := names, lastNorm := 1.0, possibleNormChange := true }

/-- `ChangeObserver::observe_grid`. -/
def ChangeObserver.observeGrid (co : ChangeObserver) (newNames : List String) :
    ChangeObserver :=
  { co with lastGridNames := newNames }

/-- `ChangeObserver::observe_norm`. -/
def ChangeObserver.observeNorm (co : ChangeObserver) (newNorm : ℝ) : ChangeObserver :=
  { co with lastNorm := newNorm, possibleNormChange := false }

/-- `ChangeObserver::has_grid_changed`: zip the snapshot of names with the
current names and test whether any pair differs. -/
def ChangeObserver.hasGridChanged (co : ChangeObserver) (names : List String) : Bool :=
  (co.lastGridNames.zip names).any fun p => p.1 != p.2

variable {n : ℕ} {shape : Fin n → ℕ}

/-- Index of one element of the rank-`n` tensor. -/
abbrev Idx (n : ℕ) (shape : Fin n → ℕ) : Type := (k : Fin n) → Fin (shape k)

/-- The list of grid names, in axis order (`grids.map(|x| x.name)`). -/
def gridNames (grids : (k : Fin n) → GridAxis (shape k)) : List String :=
  (List.finRange n).map fun k => (grids k).name

/-- The loop body of `WaveFunction::new` / `update_weight_amplitude_array`
for one axis: multiply every lane along axis `k` elementwise by the
per-axis vector `sqrt(weights[k])`. -/
noncomputable def scaleLanes (grids : (k : Fin n) → GridAxis (shape k)) (t : Idx n shape → ℂ)
    (k : Fin n) : Idx n shape → ℂ :=
  fun i => t i * Complex.ofReal (Real.sqrt ((grids k).weights (i k)))

/-- The weight-amplitude tensor as computed by `WaveFunction::new` and
`WaveFunction::update_weight_amplitude_array`: start from an all-ones
tensor and fold the per-axis scaling over the axes `0..n`. -/
noncomputable def computeWeightAmplitude (grids : (k : Fin n) → GridAxis (shape k)) :
    Idx n shape → ℂ :=
  (List.finRange n).foldl (scaleLanes grids) fun _ => 1

/-- `WaveFunction` of wave_function.rs. -/
structure WaveFunctionM (n : ℕ) (shape : Fin n → ℕ) where
  array : Idx n shape → ℂ
  grids : (k : Fin n) → GridAxis (shape k)
  changeObserver : ChangeObserver
  weightAmplitudeArray : Idx n shape → ℂ

/-- `WaveFunction::new`. -/
noncomputable def WaveFunctionM.new (array : Idx n shape → ℂ)
    (grids : (k : Fin n) → GridAxis (shape k)) : WaveFunctionM n shape :=
  { array := array
    grids := grids
    changeObserver := ChangeObserver.new (gridNames grids)
    weightAmplitudeArray := computeWeightAmplitude grids }

/-- `WaveFunction::update_weight_amplitude_array`. -/
noncomputable def WaveFunctionM.updateWeightAmplitudeArray (wf : WaveFunctionM n shape) :
    WaveFunctionM n shape :=
  { wf with weightAmplitudeArray := computeWeightAmplitude wf.grids }

/-- `WaveFunction::norm` (wave_function.rs, lines 69-86).  Rust mutates the
wave function in place; the embedding returns the computed norm together
with the updated wave function. -/
noncomputable def WaveFunctionM.norm (wf : WaveFunctionM n shape) : ℝ × WaveFunctionM n shape :=
  if wf.changeObserver.possibleNormChange = false then
    (wf.changeObserver.lastNorm, wf)
  else
    let wf1 :=
      if wf.changeObserver.hasGridChanged (gridNames wf.grids) then
        let wfu := wf.updateWeightAmplitudeArray
        { wfu with changeObserver := wfu.changeObserver.observeGrid (gridNames wfu.grids) }
      else wf
    let value := ∑ i : Idx n shape,
      Complex.normSq (wf1.array i) * Complex.normSq (wf1.weightAmplitudeArray i)
    (value, { wf1 with changeObserver := wf1.changeObserver.observeNorm value })

/-- `WaveFunction::normalize`. -/
noncomputable def WaveFunctionM.normalize (wf : WaveFunctionM n shape) (newNorm : ℝ) :
    WaveFunctionM n shape :=
  let r := wf.norm
  { r.2 with
    array := fun i => r.2.array i * Complex.ofReal (Real.sqrt (newNorm / r.1))
    changeObserver := r.2.changeObserver.observeNorm newNorm }

/-! ## Loss checker and controls

Embedding of `loss_checker.rs` and `leak_control.rs` / `border_dumping.rs`.
The optional `LossSaver` of loss_checker.rs is external I/O and is out of
scope per the specification; `loss()` then simply returns the accumulated
loss field. -/

structure LossChecker where
  name : String
  loss : ℝ
  currentNorm : ℝ

/-- `LossChecker::new`. -/
def LossChecker.new (name : String) : LossChecker :=
  { name := name, loss := 0.0, currentNorm := 1.0 }

/-- `LossChecker::check_before`. -/
noncomputable def LossChecker.checkBefore (lc : LossChecker) (wf : WaveFunctionM n shape) :
    LossChecker × WaveFunctionM n shape :=
  let r := wf.norm
  ({ lc with currentNorm := r.1 }, r.2)

/-- `LossChecker::check_after`. -/
noncomputable def LossChecker.checkAfter (lc : LossChecker) (wf : WaveFunctionM n shape) :
    LossChecker × WaveFunctionM n shape :=
  let r := wf.norm
  ({ lc with loss := lc.loss + (lc.currentNorm - r.1), currentNorm := r.1 }, r.2)

/-- `LossChecker::reset`. -/
def LossChecker.reset (lc : LossChecker) : LossChecker :=
  { lc with loss := 0.0 }

/-- The state of `LeakControl` (leak_control.rs): the recorded norm and the
optional loss checker. -/
structure LeakControl where
  norm : ℝ
  lossChecked : Option LossChecker

/-- `LeakControl::first_half`: record `norm = wf.norm()`; if a loss checker
is attached, call `check_before`. -/
noncomputable def LeakControl.firstHalf (c : LeakControl) (wf : WaveFunctionM n shape) :
    LeakControl × WaveFunctionM n shape :=
  let r := wf.norm
  match c.lossChecked with
  | some lc =>
      let rb := lc.checkBefore r.2
      ({ norm := r.1, lossChecked := some rb.1 }, rb.2)
  | none => ({ c with norm := r.1 }, r.2)

/-- `LeakControl::second_half`: if a loss checker is attached, call
`check_after`; then `wf.normalize(self.norm)`. -/
noncomputable def LeakControl.secondHalf (c : LeakControl) (wf : WaveFunctionM n shape) :
    LeakControl × WaveFunctionM n shape :=
  match c.lossChecked with
  | some lc =>
      let ra := lc.checkAfter wf
      ({ c with lossChecked := some ra.1 }, ra.2.normalize c.norm)
  | none => (c, wf.normalize c.norm)

/-! ## Diagonal propagators and the runtime operation stack

The `Propagator` implementations present in the repository (one_dim /
n_dim) are closed into one inductive type; `apply` is the common pattern
`check_before?; apply_unchecked; check_after?`.  A `Box<dyn
Diagonalization>` is caller-supplied and is embedded as an abstract pair of
transformations of the wave-function state; a `Saver` only performs
external I/O through `monitor` and is embedded as a no-op on the state. -/

inductive PropagatorOp (n : ℕ) (shape : Fin n → ℕ) : Type
  | oneDim (k : Fin n) (operator : Fin (shape k) → ℂ)
  | nDim (operator : Idx n shape → ℂ)

/-- `apply_unchecked` of one_dim_propagator.rs / n_dim_propagator.rs: set
`possible_norm_change = true` and multiply elementwise (along every lane of
the target axis for the 1-D form). -/
def PropagatorOp.applyUnchecked (op : PropagatorOp n shape) (wf : WaveFunctionM n shape) :
    WaveFunctionM n shape :=
  let wf1 := { wf with changeObserver := { wf.changeObserver with possibleNormChange := true } }
  match op with
  | .oneDim k operator => { wf1 with array := fun i => wf.array i * operator (i k) }
  | .nDim operator => { wf1 with array := fun i => wf.array i * operator i }

structure PropagatorRT (n : ℕ) (shape : Fin n → ℕ) where
  op : PropagatorOp n shape
  lossChecked : Option LossChecker

/-- `Propagator::apply` of the repository implementations. -/
noncomputable def PropagatorRT.apply (p : PropagatorRT n shape) (wf : WaveFunctionM n shape) :
    PropagatorRT n shape × WaveFunctionM n shape :=
  match p.lossChecked with
  | some lc =>
      let rb := lc.checkBefore wf
      let wf1 := p.op.applyUnchecked rb.2
      let ra := rb.1.checkAfter wf1
      ({ p with lossChecked := some ra.1 }, ra.2)
  | none => (p, p.op.applyUnchecked wf)

/-- `Propagator::loss_reset`. -/
def PropagatorRT.lossReset (p : PropagatorRT n shape) : PropagatorRT n shape :=
  { p with lossChecked := p.lossChecked.map LossChecker.reset }

/-- The `Control` implementations of the repository (`LeakControl`,
`BorderDumping`).  The border-dumping mask application is its inner
`OneDimPropagator` (with no inner loss checker). -/
inductive ControlRT (n : ℕ) (shape : Fin n → ℕ) : Type
  | leak (st : LeakControl)
  | borderDumping (k : Fin n) (mask : Fin (shape k) → ℂ) (lossChecked : Option LossChecker)

/-- `Control::name`. -/
def ControlRT.name : ControlRT n shape → String
  | .leak _ => "LeakControl"
  | .borderDumping _ _ _ => "BorderDumping"

/-- `Control::loss`. -/
def ControlRT.loss : ControlRT n shape → Option LossChecker
  | .leak st => st.lossChecked
  | .borderDumping _ _ lc => lc

/-- Writing through `Control::loss_mut` followed by `LossChecker::reset`. -/
def ControlRT.resetLoss : ControlRT n shape → ControlRT n shape
  | .leak st => .leak { st with lossChecked := st.lossChecked.map LossChecker.reset }
  | .borderDumping k mask lc => .borderDumping k mask (lc.map LossChecker.reset)

/-- `BorderDumping::first_half` = `BorderDumping::second_half`: optional
`check_before`; apply the mask propagator; optional `check_after`. -/
noncomputable def borderDumpingHalf (k : Fin n) (mask : Fin (shape k) → ℂ)
    (lossChecked : Option LossChecker) (wf : WaveFunctionM n shape) :
    ControlRT n shape × WaveFunctionM n shape :=
  match lossChecked with
  | some lc =>
      let rb := lc.checkBefore wf
      let wf1 := (PropagatorOp.oneDim k mask).applyUnchecked rb.2
      let ra := rb.1.checkAfter wf1
      (.borderDumping k mask (some ra.1), ra.2)
  | none => (.borderDumping k mask none, (PropagatorOp.oneDim k mask).applyUnchecked wf)

/-- `Control::first_half` dispatch. -/
noncomputable def ControlRT.firstHalf (c : ControlRT n shape) (wf : WaveFunctionM n shape) :
    ControlRT n shape × WaveFunctionM n shape :=
  match c with
  | .leak st =>
      let r := st.firstHalf wf
      (.leak r.1, r.2)
  | .borderDumping k mask lc => borderDumpingHalf k mask lc wf

/-- `Control::second_half` dispatch. -/
noncomputable def ControlRT.secondHalf (c : ControlRT n shape) (wf : WaveFunctionM n shape) :
    ControlRT n shape × WaveFunctionM n shape :=
  match c with
  | .leak st =>
      let r := st.secondHalf wf
      (.leak r.1, r.2)
  | .borderDumping k mask lc => borderDumpingHalf k mask lc wf

/-- The `Operations` enum of propagation.rs at runtime. -/
inductive OperationsRT (n : ℕ) (shape : Fin n → ℕ) : Type
  | propagator (p : PropagatorRT n shape)
  | diagonalization (fwd inv : WaveFunctionM n shape → WaveFunctionM n shape)
      (diagonalizationFirst : Bool)
  | saver (firstHalf : Bool)
  | control (c : ControlRT n shape) (config : Nat)

/-! ## Time grid and the propagation driver

Embedding of `time_grid.rs` and `propagation.rs`.  Rust panics
(out-of-bounds indexing, `assert!`, `panic!`) are surfaced through the
`MeanEnergyOutcome` type. -/

structure TimeGrid where
  step : ℝ
  stepNo : ℕ
  imTime : Bool

inductive TimeStep : Type
  | full
  | half

/-- `select_step` of time_grid.rs. -/
noncomputable def select_step (s : TimeStep) (time : TimeGrid) : ℂ :=
  let timeStep := match s with
    | .full => time.step
    | .half => time.step / 2.0
  if time.imTime then -Complex.ofReal timeStep * Complex.I else Complex.ofReal timeStep

structure PropagationM (n : ℕ) (shape : Fin n → ℕ) where
  waveFunction : WaveFunctionM n shape
  timeGrid : TimeGrid
  operations : List (OperationsRT n shape)

/-- One iteration of the forward sweep of `Propagation::step`: dispatch on
the operation, mutating the operation and the wave function. -/
noncomputable def applyForwardRT (op : OperationsRT n shape) (wf : WaveFunctionM n shape) :
    OperationsRT n shape × WaveFunctionM n shape :=
  match op with
  | .propagator p =>
      let r := p.apply wf
      (.propagator r.1, r.2)
  | .diagonalization fwd inv first =>
      (.diagonalization fwd inv first, if first then fwd wf else inv wf)
  | .saver firstHalf => (.saver firstHalf, wf)
  | .control c config =>
      if config &&& 1 ≠ 0 then
        let r := c.firstHalf wf
        (.control r.1 config, r.2)
      else (.control c config, wf)

/-- One iteration of the reverse sweep of `Propagation::step`. -/
noncomputable def applyReverseRT (op : OperationsRT n shape) (wf : WaveFunctionM n shape) :
    OperationsRT n shape × WaveFunctionM n shape :=
  match op with
  | .propagator p =>
      let r := p.apply wf
      (.propagator r.1, r.2)
  | .diagonalization fwd inv first =>
      (.diagonalization fwd inv first, if first then inv wf else fwd wf)
  | .saver firstHalf => (.saver firstHalf, wf)
  | .control c config =>
      if config &&& 2 ≠ 0 then
        let r := c.secondHalf wf
        (.control r.1 config, r.2)
      else (.control c config, wf)

/-- Run one sweep over a list of operations in the given order, threading
the wave function and collecting the mutated operations in sweep order. -/
noncomputable def sweep (f : OperationsRT n shape → WaveFunctionM n shape →
      OperationsRT n shape × WaveFunctionM n shape) :
    List (OperationsRT n shape) → WaveFunctionM n shape →
      List (OperationsRT n shape) × WaveFunctionM n shape
  | [], wf => ([], wf)
  | op :: rest, wf =>
      let r := f op wf
      let rr := sweep f rest r.2
      (r.1 :: rr.1, rr.2)

/-- `Propagation::step` (propagation.rs, lines 135-193): the forward sweep
over the operations in order, then the reverse sweep over
`operations.iter().rev().skip(1)`.  The mutated operations are put back in
their original positions. -/
noncomputable def PropagationM.step (p : PropagationM n shape) : PropagationM n shape :=
  let fw := sweep applyForwardRT p.operations p.waveFunction
  let rv := sweep applyReverseRT (fw.1.reverse.drop 1) fw.2
  { p with
    operations := rv.1.reverse ++ fw.1.drop (fw.1.length - 1)
    waveFunction := rv.2 }

/-- `Propagation::propagate`. -/
noncomputable def PropagationM.propagate (p : PropagationM n shape) : PropagationM n shape :=
  Nat.rec p (fun _ acc => acc.step) p.timeGrid.stepNo

/-- `Propagation::get_losses`: traverse the operations and push the loss of
every `Propagator` whose loss checker is attached. -/
def getLosses : List (OperationsRT n shape) → List ℝ
  | [] => []
  | .propagator p :: rest =>
      match p.lossChecked with
      | some lc => lc.loss :: getLosses rest
      | none => getLosses rest
  | _ :: rest => getLosses rest

/-- `Propagation::print_losses`: the sequence of `"{name} loss: {loss}"`
lines, modelled as name-loss pairs; both `Propagator` and `Control` items
report. -/
def printLosses : List (OperationsRT n shape) → List (String × ℝ)
  | [] => []
  | .propagator p :: rest =>
      match p.lossChecked with
      | some lc => (lc.name, lc.loss) :: printLosses rest
      | none => printLosses rest
  | .control c _ :: rest =>
      match c.loss with
      | some lc => (lc.name, lc.loss) :: printLosses rest
      | none => printLosses rest
  | _ :: rest => printLosses rest

/-- Outcome of `Propagation::mean_energy`: either a value or a Rust panic
(failed `assert!`, explicit `panic!`, or out-of-bounds indexing). -/
inductive MeanEnergyOutcome : Type
  | ok (energy : ℝ)
  | panicked (msg : String)

def MeanEnergyOutcome.isPanic : MeanEnergyOutcome → Prop
  | .ok _ => False
  | .panicked _ => True

/-- `Propagation::mean_energy` (propagation.rs, lines 259-302), imaginary
and real branch.  In the real branch the `arg` of the normalized dot
product is taken; `dot` asserts that both weight-amplitude arrays agree. -/
noncomputable def PropagationM.meanEnergy (p : PropagationM n shape) :
    MeanEnergyOutcome × PropagationM n shape :=
  if p.timeGrid.imTime = true then
    match p.operations with
    | [] => (.panicked "index out of bounds", p)
    | op0 :: rest =>
      match op0 with
      | .control c config =>
        if c.name = "LeakControl" then
          match c.loss with
          | some _ =>
              let p1 := { p with operations := .control c.resetLoss config :: rest }
              let p2 := p1.step
              match p2.operations.head? with
              | some (.control c2 _) =>
                  match c2.loss with
                  | some lc2 =>
                      let r := p2.waveFunction.norm
                      (.ok (-Real.log (r.1 - lc2.loss) / p.timeGrid.step),
                        { p2 with waveFunction := r.2 })
                  | none =>
                      (.panicked "Leak control must have loss checker to get mean energy.", p2)
              | _ => (.panicked "", p2)
          | none =>
              (.panicked
                "Leak control must have loss checker to get mean energy for imaginary time.", p)
        else
          (.panicked "For imaginary time propagation first control must be LeakControl.", p)
      | _ => (.panicked "", p)
  else
    let waveBefore := p.waveFunction
    let p1 := p.step
    let waveAfter := p1.waveFunction
    let r1 := waveAfter.norm
    let r2 := waveBefore.norm
    if r1.2.weightAmplitudeArray = r2.2.weightAmplitudeArray then
      let dotProd := (∑ i : Idx n shape,
          r1.2.array i * (starRingEnd ℂ) (r2.2.array i) *
            Complex.normSq (r1.2.weightAmplitudeArray i)) / Complex.ofReal (Real.sqrt (r1.1 * r2.1))
      (.ok (-Complex.arg dotProd / p.timeGrid.step), { p1 with waveFunction := r1.2 })
    else
      (.panicked "assertion failed", p1)

/-! ## Propagator factory

Embedding of `propagator/propagator_factory.rs` (`one_dim_into_propagator`).
The returned `OneDimPropagator` is reduced to its observable content: the
target axis number and the operator vector; `set_operator` asserts equal
lengths, which the dependent typing enforces. -/

structure OneDimPropagatorF (D : ℕ) where
  dimensionNo : ℕ
  operator : Fin D → ℂ

/-- `one_dim_into_propagator`: `dt = select_step(step, time)`; operator
`H.map(|x| exp(-i * x * dt))`. -/
noncomputable def one_dim_into_propagator {D : ℕ} (hamiltonian : Fin D → ℝ)
    (dimensionNo : ℕ) (time : TimeGrid) (s : TimeStep) : OneDimPropagatorF D :=
  let dt := select_step s time
  { dimensionNo := dimensionNo
    operator := fun j => Complex.exp (-Complex.I * Complex.ofReal (hamiltonian j) * dt) }

/-! ## FFT momentum grid

Embedding of `grid.rs` (`Grid`, `Grid::new_custom`) and of
`FFTTransformation::new` (propagator/fft_transformation.rs, lines 24-48).
Note `weights[length/2 - 1] *= 0.5` underflows and panics in Rust for
`nodes_no ≤ 1`; there the momenta list is empty anyway and the claims under
scrutiny only concern `nodes_no ≥ 2`, where `List.set` models the indexed
store exactly. -/

structure Grid where
  name : String
  dimensionNo : ℕ
  nodesNo : ℕ
  nodes : List ℝ
  weights : List ℝ

/-- `Grid::new_custom`. -/
def Grid.newCustom (name : String) (nodes weights : List ℝ) (dimensionNo : ℕ) : Grid :=
  { name := name, dimensionNo := dimensionNo, nodesNo := nodes.length
    nodes := nodes, weights := weights }

/-- `momentum_step` of `FFTTransformation::new`:
`2π/(nodes.last - nodes.first) * (1 - 1/nodes_no)`. -/
noncomputable def fftMomentumStep (grid : Grid) : ℝ :=
  2.0 * Real.pi / (grid.nodes.getLast?.getD 0 - grid.nodes.head?.getD 0) *
    (1.0 - 1.0 / (grid.nodesNo : ℝ))

/-- The momenta vector of `FFTTransformation::new`: the chained ranges
`0..length/2` and `-length/2..0` (integer division), each entry scaled by
`momentum_step`. -/
noncomputable def fftMomenta (grid : Grid) : List ℝ :=
  let momentumStep := fftMomentumStep grid
  let length := grid.nodesNo
  ((List.range (length / 2)).map fun (j : ℕ) => (j : ℝ) * momentumStep) ++
    ((List.range (length / 2)).map fun (j : ℕ) =>
      (((j : ℤ) - ((length / 2 : ℕ) : ℤ) : ℤ) : ℝ) * momentumStep)

/-- The weights vector of `FFTTransformation::new`: uniform
`momentum_step`, with the entries at `length/2 - 1` and `length/2`
multiplied by `0.5`. -/
noncomputable def fftWeights (grid : Grid) : List ℝ :=
  let momentumStep := fftMomentumStep grid
  let length := grid.nodesNo
  let w0 := List.replicate (fftMomenta grid).length momentumStep
  let w1 := w0.set (length / 2 - 1) (w0.getD (length / 2 - 1) 0 * 0.5)
  w1.set (length / 2) (w1.getD (length / 2) 0 * 0.5)

structure FFTTransformationS where
  dimensionNo : ℕ
  dimensionSize : ℕ
  gridTransformation : Grid

/-- `FFTTransformation::new`: builds the replacement momentum grid through
`Grid::new_custom`.  In the source the binding `grid` is shadowed by the
new grid before the struct fields are filled, so `dimension_no` and
`dimension_size` are read from the new grid. -/
noncomputable def FFTTransformationS.new (grid : Grid) (transformedGridName : String) :
    FFTTransformationS :=
  let newGrid := Grid.newCustom transformedGridName (fftMomenta grid) (fftWeights grid)
    grid.dimensionNo
  { dimensionNo := newGrid.dimensionNo
    dimensionSize := newGrid.nodesNo
    gridTransformation := newGrid }

/-! ## FFT lane transformation

Embedding of `impl Transformation for FFTTransformation`
(propagator/fft_transformation.rs, lines 51-89).  The lane content of
`fft.process` / `ifft.process` comes from the external `rustfft` crate,
whose documented contract is the unnormalized discrete Fourier transform
with kernel `exp(-2πi jk/D)` forward and `exp(2πi jk/D)` inverse, for the
plan length `D` fixed in `FFTTransformation::new` (the source grid's
`nodes_no`, which is the lane length).  The repository then divides every
element by `sqrt(self.dimension_size)` — and `dimension_size` is read from
the shadowed momentum grid in `new`, so it is the momenta count
`2·(D/2)`, which differs from the lane length `D` when `D` is odd.  A
tensor is viewed as its family of lanes along the target axis, indexed by
the product of the remaining axes. -/

/-- `exp(2πi m / D)`. -/
noncomputable def fourierKernel (D : ℕ) (m : ℤ) : ℂ :=
  Complex.exp (2 * (Real.pi : ℂ) * Complex.I * (m : ℂ) / (D : ℂ))

/-- `rustfft` forward `process` on one lane (unnormalized DFT). -/
noncomputable def fftProcessLane (D : ℕ) (x : Fin D → ℂ) : Fin D → ℂ :=
  fun k => ∑ j : Fin D, x j * fourierKernel D (-((j : ℕ) * (k : ℕ) : ℕ))

/-- `rustfft` inverse `process` on one lane (unnormalized inverse DFT). -/
noncomputable def ifftProcessLane (D : ℕ) (x : Fin D → ℂ) : Fin D → ℂ :=
  fun k => ∑ j : Fin D, x j * fourierKernel D ((j : ℕ) * (k : ℕ) : ℕ)

/-- `FFTTransformation::transform` on one lane of length `D`:
`fft.process` (plan length `D`), then divide every element by
`(self.dimension_size as f64).sqrt()`. -/
noncomputable def FFTTransformationS.transformLane (t : FFTTransformationS) (D : ℕ)
    (x : Fin D → ℂ) : Fin D → ℂ :=
  fun k => fftProcessLane D x k / Complex.ofReal (Real.sqrt (t.dimensionSize : ℝ))

/-- `FFTTransformation::inverse_transform` on one lane of length `D`:
`ifft.process`, then divide every element by
`(self.dimension_size as f64).sqrt()`. -/
noncomputable def FFTTransformationS.inverseTransformLane (t : FFTTransformationS) (D : ℕ)
    (x : Fin D → ℂ) : Fin D → ℂ :=
  fun k => ifftProcessLane D x k / Complex.ofReal (Real.sqrt (t.dimensionSize : ℝ))

/-- `FFTTransformation::transform` on a complex tensor, lane by lane along
the target axis. -/
noncomputable def FFTTransformationS.transformTensor (t : FFTTransformationS) {ι : Type}
    (D : ℕ) (a : ι → Fin D → ℂ) : ι → Fin D → ℂ :=
  fun l => t.transformLane D (a l)

/-- `FFTTransformation::inverse_transform` on a complex tensor. -/
noncomputable def FFTTransformationS.inverseTransformTensor (t : FFTTransformationS) {ι : Type}
    (D : ℕ) (a : ι → Fin D → ℂ) : ι → Fin D → ℂ :=
  fun l => t.inverseTransformLane D (a l)


/-! ## Non-diagonal propagator

Embedding of `propagator/non_diagonal_propagator.rs`.  The wave function is
viewed as its family of lanes along the target axis `dimension_no`, in
lane-iteration order (`Fin L`); `apply` brackets `apply_unchecked` with
optional loss-norm checks that read the norm and update the checker only —
they never write to the array — so the array effect of `apply` is exactly
`apply_unchecked`, which zips the stored matrices with the lanes. -/

structure WaveFunctionLanes (L D : ℕ) where
  array : Fin L → Fin D → ℂ
  possibleNormChange : Bool

structure NonDiagPropagator (D : ℕ) where
  operators : List (Matrix (Fin D) (Fin D) ℂ)
  dimensionNo : ℕ

/-- `NonDiagPropagator::new`. -/
def NonDiagPropagator.new (D : ℕ) (dimensionNo : ℕ) : NonDiagPropagator D :=
  { operators := [], dimensionNo := dimensionNo }

/-- `NonDiagPropagator::set_operators`: plain field assignment, no shape or
count validation. -/
def NonDiagPropagator.setOperators {D : ℕ} (p : NonDiagPropagator D)
    (operators : List (Matrix (Fin D) (Fin D) ℂ)) : NonDiagPropagator D :=
  { p with operators := operators }

/-- `NonDiagPropagator::apply_unchecked`: set `possible_norm_change = true`
and `operators.iter().zip(lanes)`: the `i`-th matrix is applied to the
`i`-th lane only; `zip` stops at the shorter sequence, leaving surplus
lanes untouched. -/
noncomputable def NonDiagPropagator.applyUnchecked {L D : ℕ} (p : NonDiagPropagator D)
    (wf : WaveFunctionLanes L D) : WaveFunctionLanes L D :=
  { array := fun l =>
      if h : (l : ℕ) < p.operators.length then
        (p.operators.get ⟨l, h⟩).mulVec (wf.array l)
      else wf.array l
    possibleNormChange := true }

/-- `Propagator::apply` for `NonDiagPropagator` (array effect; see the
section comment). -/
noncomputable def NonDiagPropagator.apply {L D : ℕ} (p : NonDiagPropagator D)
    (wf : WaveFunctionLanes L D) : WaveFunctionLanes L D :=
  p.applyUnchecked wf

/-! ## Claim-side definitions

Definitions that follow the words of the specification (not the source),
used to compare spec and source for the refinement-style claims. -/

/-- Claim C4 wording: "the effective increment is `δ = -i·step_selected` in
real time and `δ = -step_selected` in imaginary time". -/
noncomputable def claimedIncrementC4 (time : TimeGrid) (s : TimeStep) : ℂ :=
  let stepSelected : ℝ := match s with
    | .full => time.step
    | .half => time.step / 2.0
  if time.imTime then Complex.ofReal (-stepSelected)
  else -Complex.I * Complex.ofReal stepSelected

/-- Claim C4 wording: "a diagonal propagator whose operator is elementwise
`exp(-i · H · δ)`". -/
noncomputable def claimedOperatorC4 {D : ℕ} (hamiltonian : Fin D → ℝ) (time : TimeGrid)
    (s : TimeStep) : Fin D → ℂ :=
  fun j => Complex.exp (-Complex.I * Complex.ofReal (hamiltonian j) * claimedIncrementC4 time s)

/-- Claim C5 wording, for a source grid `g` with `D = g.nodes_no`: the
replacement momentum grid has `D` nodes, `k_j = j·dk` for `j < D/2` and
`k_j = (j-D)·dk` for `D/2 ≤ j < D`, with `dk = 2π/(x_max-x_min)·(1-1/D)`,
and weights uniformly `dk` except halved at indices `D/2 - 1` and `D/2`. -/
def c5GridClaim (g : Grid) (transformedGridName : String) : Prop :=
  let D := g.nodesNo
  let dk := fftMomentumStep g
  let res := (FFTTransformationS.new g transformedGridName).gridTransformation
  res.nodes.length = D ∧ res.weights.length = D ∧ res.nodesNo = D ∧
    (∀ j : ℕ, j < D →
      res.nodes.getD j 0 = if j < D / 2 then (j : ℝ) * dk else ((j : ℝ) - (D : ℝ)) * dk) ∧
    (∀ j : ℕ, j < D →
      res.weights.getD j 0 = if j = D / 2 - 1 ∨ j = D / 2 then dk / 2 else dk)

/-- Claim C9 wording: "exactly the cumulative losses of loss-checked
Propagator items, in stack order". -/
def lossesOfPropagatorsSpec (ops : List (OperationsRT n shape)) : List ℝ :=
  ops.filterMap fun op =>
    match op with
    | .propagator p => p.lossChecked.map LossChecker.loss
    | _ => none

/-! ## Concrete instances used by counterexamples and witnesses -/

/-- A rank-0 wave function model: the tensor has exactly one element. -/
noncomputable def wfScalar (z : ℂ) (lastNorm : ℝ) (possibleNormChange : Bool) :
    WaveFunctionM 0 ![] :=
  { array := fun _ => z
    grids := fun k => k.elim0
    changeObserver :=
      { lastGridNames := [], lastNorm := lastNorm, possibleNormChange := possibleNormChange }
    weightAmplitudeArray := fun _ => 1 }

/-- A three-node position grid (odd length), for the C5 counterexample. -/
noncomputable def gridThree : Grid :=
  Grid.newCustom "x" [0.0, 1.0, 2.0] [1.0, 1.0, 1.0] 0

/-- A four-node position grid (even length), for the C5 witness. -/
noncomputable def gridFour : Grid :=
  Grid.newCustom "x" [0.0, 1.0, 2.0, 3.0] [1.0, 1.0, 1.0, 1.0] 0

/-- A tensor with a single lane of three ones, for the C6
counterexample. -/
noncomputable def threeOnesTensor : Unit → Fin 3 → ℂ := fun _ _ => 1

/-- A tensor with a single lane of four ones, for the C6 witness. -/
noncomputable def fourOnesTensor : Unit → Fin gridFour.nodesNo → ℂ := fun _ _ => 1

/-- A non-diagonal propagator with a single stored matrix, facing two
lanes. -/
noncomputable def nonDiagOneMatrix : NonDiagPropagator 1 :=
  (NonDiagPropagator.new 1 0).setOperators [Matrix.of fun _ _ => (2 : ℂ)]

/-- Two one-point lanes. -/
noncomputable def twoLanes : WaveFunctionLanes 2 1 :=
  { array := fun l _ => ((l : ℕ) : ℂ), possibleNormChange := false }

/-- The precondition of claim C2: a control that is a `LeakControl`
carrying a loss checker. -/
def isLeakWithLossChecker (c : ControlRT n shape) : Prop :=
  ∃ st lc, c = ControlRT.leak st ∧ st.lossChecked = some lc

/-- A concrete single-operation propagation in imaginary time, for the C2
witness: a rank-0 wave function and a leak control with a fresh loss
checker applied on both halves. -/
noncomputable def leakOnlyPropagation : PropagationM 0 ![] :=
  { waveFunction := wfScalar 1 1.0 true
    timeGrid := { step := 1.0, stepNo := 1, imTime := true }
    operations :=
      [.control (.leak { norm := 0.0, lossChecked := some (LossChecker.new "leak") }) 3] }

/-! ## Claim C1 -/

/-- Claim C1, counterexample: for the stack `[A, B, C]` of three
propagators with identifiers 0, 1, 2, one step emits the sequence
`A, B, C, B, A` — the last element is executed once, not twice, so the
claimed sequence `A, B_fwd, C, C, B_rev, A` is not the trace. -/
theorem c1_counterexample :
    stepEvents [.propagator 0, .propagator 1, .propagator 2] =
        [.applied 0, .applied 1, .applied 2, .applied 1, .applied 0] ∧
      stepEvents [.propagator 0, .propagator 1, .propagator 2] ≠
        [.applied 0, .applied 1, .applied 2, .applied 2, .applied 1, .applied 0] := by
  decide

/-- Claim C1 (amended): for every operation stack `[A, B, C]` and wave
function, one call to `step()` executes the operations in the sequence
`A, B_fwd, C, B_rev, A` — a forward sweep in stack order followed by a
reverse sweep over the elements in reverse order skipping the last element
of the forward list (the last element is the middle of the symmetric step
and executes once) — with the direction of a Transformation in each sweep
determined by its order flag. -/
theorem c1_step_sequence (a b c : OperationsTag) :
    stepEvents [a, b, c] =
      forwardEvents a ++ forwardEvents b ++ forwardEvents c ++
        reverseEvents b ++ reverseEvents a ∧
    (∀ i : Nat,
      forwardEvents (.diagonalization i true) = [.diagonalized i] ∧
      reverseEvents (.diagonalization i true) = [.inverseDiagonalized i] ∧
      forwardEvents (.diagonalization i false) = [.inverseDiagonalized i] ∧
      reverseEvents (.diagonalization i false) = [.diagonalized i]) := by
  refine ⟨?_, fun i => ⟨rfl, rfl, rfl, rfl⟩⟩
  simp [stepEvents]

/-! ## Claim C8 -/

/-- Pointwise value of the per-axis scaling fold. -/
theorem foldl_scaleLanes (grids : (k : Fin n) → GridAxis (shape k))
    (l : List (Fin n)) (g : Idx n shape → ℂ) (i : Idx n shape) :
    (l.foldl (scaleLanes grids) g) i =
      g i * (l.map fun k => Complex.ofReal (Real.sqrt ((grids k).weights (i k)))).prod := by
  induction l generalizing g with
  | nil => simp
  | cons k rest ih =>
      simp only [List.foldl_cons, List.map_cons, List.prod_cons, ih, scaleLanes]
      ring

/-- Claim C8: for every wave function built from an array and grids, the
cached weight tensor is separable — `weight_amplitude_array[i₁,…,i_N]`
equals the product over the axes `k` of `√(weights_k[i_k])`. -/
theorem c8_weight_amplitude_separable (array : Idx n shape → ℂ)
    (grids : (k : Fin n) → GridAxis (shape k)) (i : Idx n shape) :
    (WaveFunctionM.new array grids).weightAmplitudeArray i =
      ∏ k : Fin n, Complex.ofReal (Real.sqrt ((grids k).weights (i k))) := by
  have h := foldl_scaleLanes grids (List.finRange n) (fun _ => 1) i
  simp only [WaveFunctionM.new, computeWeightAmplitude, h, one_mul]
  rw [Fin.prod_univ_def]

/-! ## Claim C4 -/

/-- Claim C4, counterexample: at the Hamiltonian sample `H = [π]`, real
time with `step = 2` and the `Full` selector, the factory operator is
`exp(-i·π·2) = 1`, while the claimed formula `exp(-i · H · δ)` with
`δ = -i·step_selected` yields `exp(-2π) ≠ 1`. -/
theorem c4_counterexample :
    (one_dim_into_propagator (fun _ : Fin 1 => Real.pi) 0
        { step := 2.0, stepNo := 1, imTime := false } .full).operator 0 ≠
      claimedOperatorC4 (fun _ : Fin 1 => Real.pi)
        { step := 2.0, stepNo := 1, imTime := false } .full 0 := by
  have hsel : select_step .full { step := 2.0, stepNo := 1, imTime := false } =
      ((2.0 : ℝ) : ℂ) := by
    simp [select_step]
  have hinc : claimedIncrementC4 { step := 2.0, stepNo := 1, imTime := false } .full =
      -Complex.I * ((2.0 : ℝ) : ℂ) := by
    simp [claimedIncrementC4]
  have hL : (one_dim_into_propagator (fun _ : Fin 1 => Real.pi) 0
      { step := 2.0, stepNo := 1, imTime := false } .full).operator 0 = 1 := by
    simp only [one_dim_into_propagator, hsel]
    have harg : -Complex.I * ((Real.pi : ℝ) : ℂ) * ((2.0 : ℝ) : ℂ) =
        ((-1 : ℤ) : ℂ) * (2 * (Real.pi : ℂ) * Complex.I) := by
      push_cast
      norm_num
      ring
    rw [harg, Complex.exp_int_mul_two_pi_mul_I]
  have hR : claimedOperatorC4 (fun _ : Fin 1 => Real.pi)
      { step := 2.0, stepNo := 1, imTime := false } .full 0 =
      Complex.ofReal (Real.exp (-(2 * Real.pi))) := by
    simp only [claimedOperatorC4, hinc]
    have harg : -Complex.I * ((Real.pi : ℝ) : ℂ) * (-Complex.I * ((2.0 : ℝ) : ℂ)) =
        ((-(2 * Real.pi) : ℝ) : ℂ) := by
      push_cast
      norm_num
      ring_nf
      rw [Complex.I_sq]
      ring
    rw [harg, ← Complex.ofReal_exp]
  rw [hL, hR]
  intro hEq
  have h1 : Real.exp (-(2 * Real.pi)) = 1 := by
    have h1c : Complex.ofReal (Real.exp (-(2 * Real.pi))) = Complex.ofReal (1 : ℝ) := by
      rw [← hEq]
      norm_num
    exact_mod_cast h1c
  have h2 : Real.exp (-(2 * Real.pi)) < 1 := by
    rw [Real.exp_lt_one_iff]
    have := Real.pi_pos
    linarith
  exact absurd h1 (ne_of_lt h2)

/-- Claim C4 (amended): for every real Hamiltonian sample `H`, time grid
and step selector (`Full` selecting `step`, `Half` selecting `step/2`),
the factory returns a diagonal propagator whose operator is elementwise
`exp(H · δ)`, where `δ = -i·step_selected` in real time and
`δ = -step_selected` in imaginary time (the source computes
`exp(-i · H · select_step)` with `select_step = step_selected` in real time
and `-i·step_selected` in imaginary time, which is the same value). -/
theorem c4_factory_operator {D : ℕ} (hamiltonian : Fin D → ℝ) (dimensionNo : ℕ)
    (time : TimeGrid) (s : TimeStep) (j : Fin D) :
    (one_dim_into_propagator hamiltonian dimensionNo time s).operator j =
      Complex.exp (Complex.ofReal (hamiltonian j) * claimedIncrementC4 time s) := by
  show Complex.exp _ = Complex.exp _
  congr 1
  unfold select_step claimedIncrementC4
  cases htime : time.imTime with
  | false =>
      simp only [htime, Bool.false_eq_true, if_false]
      ring
  | true =>
      simp only [htime, if_true]
      cases s
      all_goals
        simp only [Complex.ofReal_neg]
        ring_nf
        rw [Complex.I_sq]
        ring

/-! ## Claim C7 -/

/-- When `possible_norm_change` is unset, `norm` returns the cached value
and leaves the wave function unchanged. -/
theorem norm_cached (wf : WaveFunctionM n shape)
    (h : wf.changeObserver.possibleNormChange = false) :
    wf.norm = (wf.changeObserver.lastNorm, wf) := by
  rw [WaveFunctionM.norm]
  simp [h]

/-- After any `norm` call the flag is down and the cache holds the value
just computed. -/
theorem norm_state (wf : WaveFunctionM n shape) :
    wf.norm.2.changeObserver.possibleNormChange = false ∧
      wf.norm.2.changeObserver.lastNorm = wf.norm.1 := by
  rw [WaveFunctionM.norm]
  by_cases h : wf.changeObserver.possibleNormChange = false
  · simp [h]
  · simp [h, ChangeObserver.observeNorm]

/-- Calling `norm` twice returns the same value and state. -/
theorem norm_then (wf : WaveFunctionM n shape) :
    wf.norm.2.norm = (wf.norm.1, wf.norm.2) := by
  rw [norm_cached wf.norm.2 (norm_state wf).1, (norm_state wf).2]

/-- After `normalize(t)` the next `norm` call returns `t`. -/
theorem normalize_norm (wf : WaveFunctionM n shape) (t : ℝ) :
    (wf.normalize t).norm.1 = t := by
  rw [norm_cached]
  · simp [WaveFunctionM.normalize, ChangeObserver.observeNorm]
  · simp [WaveFunctionM.normalize, ChangeObserver.observeNorm]

/-- Claim C7: `LeakControl::first_half` records `norm = wf.norm()` and
calls `check_before` exactly when a loss checker is attached;
`LeakControl::second_half` then renormalizes to the recorded value, so
after `second_half` the wave function's norm equals the norm recorded at
the preceding `first_half`, whatever happened to the wave function in
between. -/
theorem c7_leak_control_preserves_norm (c : LeakControl)
    (wf0 wf1 : WaveFunctionM n shape) :
    (c.firstHalf wf0).1.norm = wf0.norm.1 ∧
      (c.firstHalf wf0).1.lossChecked =
        (c.lossChecked.map fun lc => { lc with currentNorm := wf0.norm.1 }) ∧
      ((c.firstHalf wf0).1.secondHalf wf1).2.norm.1 = wf0.norm.1 := by
  have hfh : (c.firstHalf wf0).1.norm = wf0.norm.1 ∧
      (c.firstHalf wf0).1.lossChecked =
        (c.lossChecked.map fun lc => { lc with currentNorm := wf0.norm.1 }) := by
    cases hc : c.lossChecked with
    | none => simp [LeakControl.firstHalf, hc]
    | some lc =>
        simp [LeakControl.firstHalf, hc, LossChecker.checkBefore, norm_then]
  refine ⟨hfh.1, hfh.2, ?_⟩
  cases hc1 : (c.firstHalf wf0).1.lossChecked with
  | none =>
      simp [LeakControl.secondHalf, hc1, normalize_norm, hfh.1]
  | some lc1 =>
      simp [LeakControl.secondHalf, hc1, LossChecker.checkAfter, normalize_norm, hfh.1]

/-! ## Claim C10 -/

/-- Claim C10: `NonDiagPropagator::set_operators` stores any list of
matrices without shape or count validation; `apply` zips the stored
matrices one-to-one with the lanes along the target axis, so each matrix
acts on a single lane, and when fewer matrices than lanes are supplied the
surplus lanes are left unchanged (no abort). -/
theorem c10_non_diag_propagator {L D : ℕ} :
    (∀ (p : NonDiagPropagator D) (operators : List (Matrix (Fin D) (Fin D) ℂ)),
        (p.setOperators operators).operators = operators ∧
        (p.setOperators operators).dimensionNo = p.dimensionNo) ∧
    (∀ (p : NonDiagPropagator D) (wf : WaveFunctionLanes L D) (l : Fin L),
        p.operators.length ≤ (l : ℕ) →
        (p.apply wf).array l = wf.array l) ∧
    (∀ (p : NonDiagPropagator D) (wf : WaveFunctionLanes L D) (l : Fin L)
        (h : (l : ℕ) < p.operators.length),
        (p.apply wf).array l = (p.operators.get ⟨(l : ℕ), h⟩).mulVec (wf.array l)) := by
  refine ⟨fun p operators => ⟨rfl, rfl⟩, fun p wf l hle => ?_, fun p wf l h => ?_⟩
  · simp [NonDiagPropagator.apply, NonDiagPropagator.applyUnchecked, Nat.not_lt.mpr hle]
  · simp [NonDiagPropagator.apply, NonDiagPropagator.applyUnchecked, h]

/-- Claim C10, witness: one stored matrix facing two lanes; the second lane
is out of reach of the zip and stays unchanged. -/
theorem c10_witness :
    nonDiagOneMatrix.operators.length ≤ ((1 : Fin 2) : ℕ) ∧
      (nonDiagOneMatrix.apply twoLanes).array 1 = twoLanes.array 1 := by
  have hle : nonDiagOneMatrix.operators.length ≤ ((1 : Fin 2) : ℕ) := by
    show (List.length _ ≤ _)
    rw [show nonDiagOneMatrix.operators = [Matrix.of fun _ _ => (2 : ℂ)] from rfl]
    simp
  exact ⟨hle, (c10_non_diag_propagator.2.1 nonDiagOneMatrix twoLanes 1 hle)⟩

/-! ## Claim C9 -/

theorem getLosses_append (l1 l2 : List (OperationsRT n shape)) :
    getLosses (l1 ++ l2) = getLosses l1 ++ getLosses l2 := by
  induction l1 with
  | nil => simp [getLosses]
  | cons op rest ih =>
      cases op with
      | propagator p =>
          cases hp : p.lossChecked with
          | none => simp [getLosses, hp, ih]
          | some lc => simp [getLosses, hp, ih]
      | diagonalization fwd inv first => simp [getLosses, ih]
      | saver fh => simp [getLosses, ih]
      | control c config => simp [getLosses, ih]

theorem printLosses_append (l1 l2 : List (OperationsRT n shape)) :
    printLosses (l1 ++ l2) = printLosses l1 ++ printLosses l2 := by
  induction l1 with
  | nil => simp [printLosses]
  | cons op rest ih =>
      cases op with
      | propagator p =>
          cases hp : p.lossChecked with
          | none => simp [printLosses, hp, ih]
          | some lc => simp [printLosses, hp, ih]
      | diagonalization fwd inv first => simp [printLosses, ih]
      | saver fh => simp [printLosses, ih]
      | control c config =>
          cases hc : c.loss with
          | none => simp [printLosses, hc, ih]
          | some lc => simp [printLosses, hc, ih]

/-- Claim C9: `get_losses` returns, in stack order, exactly the cumulative
losses of loss-checked Propagator items; a loss checker attached to a
Control item contributes nothing to `get_losses` even though
`print_losses` reports it together with the propagator losses. -/
theorem c9_get_losses_propagators_only :
    (∀ ops : List (OperationsRT n shape), getLosses ops = lossesOfPropagatorsSpec ops) ∧
    (∀ (l1 l2 : List (OperationsRT n shape)) (c : ControlRT n shape) (config : Nat)
        (lc : LossChecker), c.loss = some lc →
        getLosses (l1 ++ .control c config :: l2) = getLosses (l1 ++ l2) ∧
        printLosses (l1 ++ .control c config :: l2) =
          printLosses l1 ++ (lc.name, lc.loss) :: printLosses l2) ∧
    (∀ (l1 l2 : List (OperationsRT n shape)) (p : PropagatorRT n shape) (lc : LossChecker),
        p.lossChecked = some lc →
        getLosses (l1 ++ .propagator p :: l2) = getLosses l1 ++ lc.loss :: getLosses l2) := by
  refine ⟨?_, ?_, ?_⟩
  · intro ops
    induction ops with
    | nil => simp [getLosses, lossesOfPropagatorsSpec]
    | cons op rest ih =>
        cases op with
        | propagator p =>
            cases hp : p.lossChecked with
            | none => simp [getLosses, lossesOfPropagatorsSpec, hp, ih,
                List.filterMap_cons]
            | some lc => simp [getLosses, lossesOfPropagatorsSpec, hp, ih,
                List.filterMap_cons]
        | diagonalization fwd inv first =>
            simp [getLosses, lossesOfPropagatorsSpec, ih, List.filterMap_cons]
        | saver fh =>
            simp [getLosses, lossesOfPropagatorsSpec, ih, List.filterMap_cons]
        | control c config =>
            simp [getLosses, lossesOfPropagatorsSpec, ih, List.filterMap_cons]
  · intro l1 l2 c config lc hc
    constructor
    · rw [getLosses_append, getLosses_append]
      simp [getLosses]
    · rw [printLosses_append]
      simp [printLosses, hc]
  · intro l1 l2 p lc hp
    rw [getLosses_append]
    simp [getLosses, hp]

/-- Claim C9, witness: a stack holding one loss-checked propagator,
a leak control carrying a loss checker, and a saver; the control's loss is
printed but not returned. -/
theorem c9_witness :
    (@ControlRT.loss 0 ![]
        (.leak { norm := 1.0, lossChecked := some (LossChecker.new "LeakControl") }) =
      some (LossChecker.new "LeakControl")) ∧
    getLosses ((.saver true : OperationsRT 0 ![]) ::
        .control (.leak { norm := 1.0, lossChecked := some (LossChecker.new "LeakControl") }) 3
          :: []) =
      getLosses ((.saver true : OperationsRT 0 ![]) :: []) ∧
    printLosses ((.saver true : OperationsRT 0 ![]) ::
        .control (.leak { norm := 1.0, lossChecked := some (LossChecker.new "LeakControl") }) 3
          :: []) =
      printLosses ((.saver true : OperationsRT 0 ![]) :: []) ++
        ((LossChecker.new "LeakControl").name, (LossChecker.new "LeakControl").loss) ::
          printLosses ([] : List (OperationsRT 0 ![])) := by
  refine ⟨rfl, ?_⟩
  have h := (@c9_get_losses_propagators_only 0 ![]).2.1
    [.saver true] []
    (.leak { norm := 1.0, lossChecked := some (LossChecker.new "LeakControl") }) 3
    (LossChecker.new "LeakControl") rfl
  simpa using h

/-! ## Claim C3 -/

/-- Claim C3: `norm()` returns the cached `last_norm` without recomputation
when `possible_norm_change` is false; otherwise, if any axis grid name
differs from the names observed at the last weight-array recomputation it
rebuilds `weight_amplitude_array` and snapshots the names, then returns
`Σ |array[i]|²·|weight_amplitude_array[i]|²`, caches that value as
`last_norm` and clears `possible_norm_change`. -/
theorem c3_norm_bookkeeping (wf : WaveFunctionM n shape) :
    (wf.changeObserver.possibleNormChange = false →
      wf.norm = (wf.changeObserver.lastNorm, wf)) ∧
    (wf.changeObserver.possibleNormChange = true →
      wf.changeObserver.hasGridChanged (gridNames wf.grids) = true →
      wf.norm.1 = ∑ i : Idx n shape,
          Complex.normSq (wf.array i) * Complex.normSq (computeWeightAmplitude wf.grids i) ∧
      wf.norm.2.array = wf.array ∧
      wf.norm.2.grids = wf.grids ∧
      wf.norm.2.weightAmplitudeArray = computeWeightAmplitude wf.grids ∧
      wf.norm.2.changeObserver =
        { lastGridNames := gridNames wf.grids, lastNorm := wf.norm.1,
          possibleNormChange := false }) ∧
    (wf.changeObserver.possibleNormChange = true →
      wf.changeObserver.hasGridChanged (gridNames wf.grids) = false →
      wf.norm.1 = ∑ i : Idx n shape,
          Complex.normSq (wf.array i) * Complex.normSq (wf.weightAmplitudeArray i) ∧
      wf.norm.2.array = wf.array ∧
      wf.norm.2.grids = wf.grids ∧
      wf.norm.2.weightAmplitudeArray = wf.weightAmplitudeArray ∧
      wf.norm.2.changeObserver =
        { lastGridNames := wf.changeObserver.lastGridNames, lastNorm := wf.norm.1,
          possibleNormChange := false }) := by
  refine ⟨fun h => norm_cached wf h, fun h1 h2 => ?_, fun h1 h2 => ?_⟩
  · rw [WaveFunctionM.norm]
    simp [h1, h2, WaveFunctionM.updateWeightAmplitudeArray, ChangeObserver.observeGrid,
      ChangeObserver.observeNorm]
  · rw [WaveFunctionM.norm]
    simp [h1, h2, ChangeObserver.observeNorm]

/-- Claim C3, witness: a wave function with `possible_norm_change` unset
and cached norm `5` returns `5` unchanged. -/
theorem c3_witness :
    (wfScalar 0 5.0 false).changeObserver.possibleNormChange = false ∧
      (wfScalar 0 5.0 false).norm =
        ((wfScalar 0 5.0 false).changeObserver.lastNorm, wfScalar 0 5.0 false) :=
  ⟨rfl, (c3_norm_bookkeeping (wfScalar 0 5.0 false)).1 rfl⟩

/-! ## Claim C2 -/

theorem sweep_nil (f : OperationsRT n shape → WaveFunctionM n shape →
      OperationsRT n shape × WaveFunctionM n shape) (w : WaveFunctionM n shape) :
    sweep f [] w = ([], w) := rfl

theorem sweep_cons (f : OperationsRT n shape → WaveFunctionM n shape →
      OperationsRT n shape × WaveFunctionM n shape) (op : OperationsRT n shape)
    (rest : List (OperationsRT n shape)) (w : WaveFunctionM n shape) :
    sweep f (op :: rest) w =
      ((f op w).1 :: (sweep f rest (f op w).2).1, (sweep f rest (f op w).2).2) := rfl

theorem sweep_append (f : OperationsRT n shape → WaveFunctionM n shape →
      OperationsRT n shape × WaveFunctionM n shape) (l1 l2 : List (OperationsRT n shape))
    (w : WaveFunctionM n shape) :
    sweep f (l1 ++ l2) w =
      ((sweep f l1 w).1 ++ (sweep f l2 (sweep f l1 w).2).1,
        (sweep f l2 (sweep f l1 w).2).2) := by
  induction l1 generalizing w with
  | nil => simp [sweep_nil]
  | cons op rest ih => simp [sweep_cons, ih]

theorem sweep_length (f : OperationsRT n shape → WaveFunctionM n shape →
      OperationsRT n shape × WaveFunctionM n shape) (l : List (OperationsRT n shape))
    (w : WaveFunctionM n shape) :
    (sweep f l w).1.length = l.length := by
  induction l generalizing w with
  | nil => rfl
  | cons op rest ih => simp [sweep_cons, ih]

/-- A single-element stack: one step applies only the forward sweep to the
element (the reverse sweep is empty). -/
theorem step_operations_singleton (p : PropagationM n shape) (a : OperationsRT n shape)
    (h : p.operations = [a]) :
    p.step.operations = [(applyForwardRT a p.waveFunction).1] ∧
      p.step.waveFunction = (applyForwardRT a p.waveFunction).2 := by
  rw [PropagationM.step, h]
  simp [sweep_cons, sweep_nil]

/-- With at least two stack elements, the head of the operations list after
one step is the head operation as mutated by the forward sweep and then by
the reverse sweep (it is the first and the last operation executed). -/
theorem step_operations_head (p : PropagationM n shape) (a : OperationsRT n shape)
    (rest : List (OperationsRT n shape)) (h : p.operations = a :: rest) (hne : rest ≠ []) :
    ∃ w, p.step.operations.head? =
      some ((applyReverseRT (applyForwardRT a p.waveFunction).1 w).1) := by
  rw [PropagationM.step, h]
  simp only [sweep_cons]
  set a1 := (applyForwardRT a p.waveFunction).1 with ha1
  set rs := sweep applyForwardRT rest (applyForwardRT a p.waveFunction).2 with hrs
  have hlen : rs.1.length = rest.length := sweep_length _ _ _
  have hrsne : rs.1 ≠ [] := by
    intro hcon
    apply hne
    have := hlen
    rw [hcon] at this
    exact List.eq_nil_of_length_eq_zero this.symm
  obtain ⟨x, xs, hx⟩ := List.exists_cons_of_ne_nil (List.reverse_ne_nil_iff.mpr hrsne)
  have hdrop : (a1 :: rs.1).reverse.drop 1 = xs ++ [a1] := by
    rw [List.reverse_cons, hx]
    simp
  rw [hdrop, sweep_append]
  refine ⟨(sweep applyReverseRT xs rs.2).2, ?_⟩
  simp [sweep_cons, sweep_nil]

theorem leak_firstHalf_lossChecked (st : LeakControl) (lc : LossChecker)
    (w : WaveFunctionM n shape) (h : st.lossChecked = some lc) :
    ∃ lc1, (LeakControl.firstHalf st w).1.lossChecked = some lc1 := by
  simp only [LeakControl.firstHalf, h]
  exact ⟨_, rfl⟩

theorem leak_secondHalf_lossChecked (st : LeakControl) (lc : LossChecker)
    (w : WaveFunctionM n shape) (h : st.lossChecked = some lc) :
    ∃ lc1, (LeakControl.secondHalf st w).1.lossChecked = some lc1 := by
  simp only [LeakControl.secondHalf, h]
  exact ⟨_, rfl⟩

/-- The forward sweep sends a leak control with a loss checker to a leak
control with a loss checker, under the same `Apply` configuration. -/
theorem applyForwardRT_leak_preserved (c : ControlRT n shape) (config : Nat)
    (w : WaveFunctionM n shape) (h : isLeakWithLossChecker c) :
    ∃ c1 w1, applyForwardRT (.control c config) w = (.control c1 config, w1) ∧
      isLeakWithLossChecker c1 := by
  obtain ⟨st, lc, rfl, hlc⟩ := h
  have heq : @applyForwardRT n shape (.control (.leak st) config) w =
      if config &&& 1 ≠ 0 then
        (.control (.leak (LeakControl.firstHalf st w).1) config, (LeakControl.firstHalf st w).2)
      else (.control (.leak st) config, w) := rfl
  by_cases hb : config &&& 1 ≠ 0
  · rw [heq, if_pos hb]
    obtain ⟨lc1, h1⟩ := leak_firstHalf_lossChecked st lc w hlc
    exact ⟨_, _, rfl, _, lc1, rfl, h1⟩
  · rw [heq, if_neg hb]
    exact ⟨.leak st, w, rfl, st, lc, rfl, hlc⟩

/-- The reverse sweep sends a leak control with a loss checker to a leak
control with a loss checker, under the same `Apply` configuration. -/
theorem applyReverseRT_leak_preserved (c : ControlRT n shape) (config : Nat)
    (w : WaveFunctionM n shape) (h : isLeakWithLossChecker c) :
    ∃ c1 w1, applyReverseRT (.control c config) w = (.control c1 config, w1) ∧
      isLeakWithLossChecker c1 := by
  obtain ⟨st, lc, rfl, hlc⟩ := h
  have heq : @applyReverseRT n shape (.control (.leak st) config) w =
      if config &&& 2 ≠ 0 then
        (.control (.leak (LeakControl.secondHalf st w).1) config, (LeakControl.secondHalf st w).2)
      else (.control (.leak st) config, w) := rfl
  by_cases hb : config &&& 2 ≠ 0
  · rw [heq, if_pos hb]
    obtain ⟨lc1, h1⟩ := leak_secondHalf_lossChecked st lc w hlc
    exact ⟨_, _, rfl, _, lc1, rfl, h1⟩
  · rw [heq, if_neg hb]
    exact ⟨.leak st, w, rfl, st, lc, rfl, hlc⟩

/-- After resetting the head leak control and performing one step, the head
of the operations list is still a leak control with a loss checker, under
the same configuration. -/
theorem step_head_leak_control (p : PropagationM n shape) (st : LeakControl)
    (lc : LossChecker) (config : Nat) (rest : List (OperationsRT n shape))
    (hlc : st.lossChecked = some lc) (hops : p.operations = .control (.leak st) config :: rest) :
    ∃ st2 lc2, p.step.operations.head? = some (.control (.leak st2) config) ∧
      st2.lossChecked = some lc2 := by
  have hP : @isLeakWithLossChecker n shape (.leak st) := ⟨st, lc, rfl, hlc⟩
  by_cases hrest : rest = []
  · subst hrest
    obtain ⟨c1, w1, hfw, hP1⟩ := applyForwardRT_leak_preserved (.leak st) config p.waveFunction hP
    obtain ⟨st2, lc2, rfl, h2⟩ := hP1
    have hsingle := (step_operations_singleton p (.control (.leak st) config) hops).1
    rw [hsingle, hfw]
    exact ⟨st2, lc2, rfl, h2⟩
  · obtain ⟨w, hhead⟩ := step_operations_head p (.control (.leak st) config) rest hops hrest
    obtain ⟨c1, w1, hfw, hP1⟩ := applyForwardRT_leak_preserved (.leak st) config p.waveFunction hP
    rw [hfw] at hhead
    obtain ⟨c2, w2, hrv, hP2⟩ := applyReverseRT_leak_preserved c1 config w hP1
    rw [hrv] at hhead
    obtain ⟨st2, lc2, rfl, h2⟩ := hP2
    exact ⟨st2, lc2, hhead, h2⟩

/-- Claim C2: with `im_time` set, `mean_energy()` aborts unless the first
element of the operation stack is a Control named `LeakControl` carrying a
loss checker; when that precondition holds it resets that loss checker,
runs exactly one step, reads the decay `Δ` accumulated by the loss checker
during that step, and returns `-ln(wf.norm() - Δ) / step` — dividing by
`step`, not `2·step`. -/
theorem c2_mean_energy_imaginary (p : PropagationM n shape) :
    (p.timeGrid.imTime = true →
      ∀ e q, p.meanEnergy = (.ok e, q) →
        ∃ st lc config rest,
          p.operations = .control (.leak st) config :: rest ∧ st.lossChecked = some lc) ∧
    (∀ st lc config rest,
      p.timeGrid.imTime = true →
      p.operations = .control (.leak st) config :: rest →
      st.lossChecked = some lc →
      ∃ st2 lc2,
        (PropagationM.step { p with operations := (OperationsRT.control
            (ControlRT.resetLoss (ControlRT.leak st)) config :: rest) }).operations.head? =
          some (.control (.leak st2) config) ∧
        st2.lossChecked = some lc2 ∧
        p.meanEnergy =
          (.ok (-Real.log
              ((PropagationM.step { p with operations := (OperationsRT.control
                  (ControlRT.resetLoss (ControlRT.leak st)) config ::
                    rest) }).waveFunction.norm.1 - lc2.loss) / p.timeGrid.step),
            { (PropagationM.step { p with operations := (OperationsRT.control
                (ControlRT.resetLoss (ControlRT.leak st)) config :: rest) }) with
              waveFunction := (PropagationM.step { p with operations := (OperationsRT.control
                (ControlRT.resetLoss (ControlRT.leak st)) config ::
                  rest) }).waveFunction.norm.2 })) := by
  constructor
  · intro him e q hok
    rcases hops : p.operations with _ | ⟨op0, rest⟩
    · simp [PropagationM.meanEnergy, him, hops] at hok
    · cases op0 with
      | control c config =>
          cases c with
          | leak st =>
              cases hlc : st.lossChecked with
              | some lc => exact ⟨st, lc, config, rest, rfl, hlc⟩
              | none => simp [PropagationM.meanEnergy, him, hops, ControlRT.name,
                  ControlRT.loss, hlc] at hok
          | borderDumping k mask olc =>
              simp [PropagationM.meanEnergy, him, hops, ControlRT.name] at hok
      | propagator pr => simp [PropagationM.meanEnergy, him, hops] at hok
      | diagonalization fwd inv first => simp [PropagationM.meanEnergy, him, hops] at hok
      | saver fh => simp [PropagationM.meanEnergy, him, hops] at hok
  · intro st lc config rest him hops hlc
    have hlc1 : (@ControlRT.resetLoss n shape (.leak st)) =
        .leak { st with lossChecked := some lc.reset } := by
      simp [ControlRT.resetLoss, hlc]
    obtain ⟨st2, lc2, hhead, h2⟩ := step_head_leak_control
      { p with operations := (OperationsRT.control
          (ControlRT.resetLoss (ControlRT.leak st)) config :: rest) }
      { st with lossChecked := some lc.reset } lc.reset config rest rfl
      (by rw [show ({ p with operations := (OperationsRT.control
          (ControlRT.resetLoss (ControlRT.leak st)) config :: rest) } :
            PropagationM n shape).operations =
          OperationsRT.control (ControlRT.resetLoss (ControlRT.leak st)) config :: rest
          from rfl, hlc1])
    refine ⟨st2, lc2, hhead, h2, ?_⟩
    simp only [PropagationM.meanEnergy, him, if_true, hops]
    simp only [ControlRT.name, ControlRT.loss, hlc]
    rw [hhead]
    simp only [ControlRT.loss, h2, if_true]

/-- Claim C2, witness: an imaginary-time propagation whose single
operation is a leak control with a fresh loss checker satisfies the
precondition, and `mean_energy` returns a value instead of aborting. -/
theorem c2_witness :
    leakOnlyPropagation.timeGrid.imTime = true ∧
      leakOnlyPropagation.operations =
        .control (.leak { norm := 0.0, lossChecked := some (LossChecker.new "leak") }) 3
          :: [] ∧
      (∃ e q, leakOnlyPropagation.meanEnergy = (.ok e, q)) := by
  have h := (c2_mean_energy_imaginary leakOnlyPropagation).2
    { norm := 0.0, lossChecked := some (LossChecker.new "leak") } (LossChecker.new "leak")
    3 [] rfl rfl rfl
  obtain ⟨st2, lc2, hh, h2, heq⟩ := h
  exact ⟨rfl, rfl, _, _, heq⟩

/-! ## Claim C5 -/

theorem fftMomenta_length (g : Grid) :
    (fftMomenta g).length = g.nodesNo / 2 + g.nodesNo / 2 := by
  simp only [fftMomenta, List.length_append, List.length_map, List.length_range]

/-- Claim C5, counterexample: on a source grid of odd length `D = 3` the
momenta list has only `2·(3/2) = 2` entries, so the replacement grid does
not have `D` nodes and the claim fails. -/
theorem c5_counterexample : ¬ c5GridClaim gridThree "p" := by
  intro h
  simp only [c5GridClaim] at h
  have h1 := h.1
  have hlen : (FFTTransformationS.new gridThree "p").gridTransformation.nodes.length = 2 := by
    show (fftMomenta gridThree).length = 2
    rw [fftMomenta_length]
    rfl
  have h3 : gridThree.nodesNo = 3 := rfl
  rw [hlen, h3] at h1
  exact absurd h1 (by norm_num)

/-- Claim C5 (amended): for every source grid of even length `D ≥ 2`, the
FFT transformation's replacement momentum grid has `D` nodes with
`k_j = j·dk` for `j < D/2` and `k_j = (j-D)·dk` for `D/2 ≤ j < D`, where
`dk = 2π/(x_max - x_min)·(1 - 1/D)`, and weights uniformly `dk` except
halved on the two Nyquist-adjacent indices `D/2 - 1` and `D/2`. -/
theorem c5_fft_momentum_grid (g : Grid) (tname : String)
    (he : g.nodesNo % 2 = 0) (h2 : 2 ≤ g.nodesNo) : c5GridClaim g tname := by
  have hM1 : 1 ≤ g.nodesNo / 2 := by omega
  have hMM : g.nodesNo / 2 + g.nodesNo / 2 = g.nodesNo := by omega
  have hml : (fftMomenta g).length = g.nodesNo := by rw [fftMomenta_length, hMM]
  have hwl : (fftWeights g).length = g.nodesNo := by
    simp only [fftWeights, List.length_set, List.length_replicate, hml]
  simp only [c5GridClaim, FFTTransformationS.new, Grid.newCustom]
  refine ⟨hml, hwl, hml, ?_, ?_⟩
  · intro j hj
    by_cases hjM : j < g.nodesNo / 2
    · rw [if_pos hjM]
      simp only [fftMomenta, List.getD_eq_getElem?_getD]
      rw [List.getElem?_append_left
        (by rw [List.length_map, List.length_range]; exact hjM)]
      rw [List.getElem?_map, List.getElem?_range hjM]
      simp
    · rw [if_neg hjM]
      push_neg at hjM
      have hjb : j - g.nodesNo / 2 < g.nodesNo / 2 := by omega
      simp only [fftMomenta, List.getD_eq_getElem?_getD]
      rw [List.getElem?_append_right
        (by rw [List.length_map, List.length_range]; exact hjM)]
      rw [List.length_map, List.length_range, List.getElem?_map, List.getElem?_range hjb]
      simp only [Option.map_some', Option.getD_some]
      have hcast : ((j - g.nodesNo / 2 : ℕ) : ℤ) = (j : ℤ) - ((g.nodesNo / 2 : ℕ) : ℤ) :=
        Int.ofNat_sub hjM
      rw [hcast]
      have hD : ((g.nodesNo : ℝ)) = ((g.nodesNo / 2 : ℕ) : ℝ) + ((g.nodesNo / 2 : ℕ) : ℝ) := by
        exact_mod_cast congrArg (Nat.cast (R := ℝ)) hMM.symm
      push_cast
      rw [hD]
      have hdiv : (((g.nodesNo : ℤ) / 2 : ℤ) : ℝ) = ((g.nodesNo / 2 : ℕ) : ℝ) := by
        norm_cast
      rw [hdiv]
      ring
  · intro j hj
    have hlt1 : g.nodesNo / 2 - 1 < g.nodesNo := by omega
    have hlt2 : g.nodesNo / 2 < g.nodesNo := by omega
    have hne : g.nodesNo / 2 - 1 ≠ g.nodesNo / 2 := by omega
    have hg1 : (List.replicate g.nodesNo (fftMomentumStep g)).getD (g.nodesNo / 2 - 1) 0 =
        fftMomentumStep g := by
      rw [List.getD_eq_getElem?_getD, List.getElem?_replicate_of_lt hlt1, Option.getD_some]
    have hg2 : ((List.replicate g.nodesNo (fftMomentumStep g)).set (g.nodesNo / 2 - 1)
          (fftMomentumStep g * 0.5)).getD (g.nodesNo / 2) 0 = fftMomentumStep g := by
      rw [List.getD_eq_getElem?_getD, List.getElem?_set_ne hne,
        List.getElem?_replicate_of_lt hlt2, Option.getD_some]
    simp only [fftWeights, hml]
    rw [hg1, hg2]
    by_cases hjq : j = g.nodesNo / 2
    · rw [if_pos (Or.inr hjq), hjq, List.getD_eq_getElem?_getD]
      rw [List.getElem?_set_self
        (by rw [List.length_set, List.length_replicate]; exact hlt2)]
      rw [Option.getD_some]
      norm_num
      ring
    · by_cases hjp : j = g.nodesNo / 2 - 1
      · rw [if_pos (Or.inl hjp), hjp, List.getD_eq_getElem?_getD]
        rw [List.getElem?_set_ne (by omega)]
        rw [List.getElem?_set_self (by rw [List.length_replicate]; exact hlt1)]
        rw [Option.getD_some]
        norm_num
        ring
      · rw [if_neg (by tauto), List.getD_eq_getElem?_getD]
        rw [List.getElem?_set_ne (by omega), List.getElem?_set_ne (by omega)]
        rw [List.getElem?_replicate_of_lt hj, Option.getD_some]

/-- Claim C5, witness: the even four-node grid satisfies the amended
claim. -/
theorem c5_witness :
    gridFour.nodesNo % 2 = 0 ∧ 2 ≤ gridFour.nodesNo ∧ c5GridClaim gridFour "p" :=
  ⟨rfl, by norm_num [gridFour, Grid.newCustom],
    c5_fft_momentum_grid gridFour "p" rfl (by norm_num [gridFour, Grid.newCustom])⟩

/-! ## Claim C6 -/

theorem fourierKernel_add (D : ℕ) (a b : ℤ) :
    fourierKernel D (a + b) = fourierKernel D a * fourierKernel D b := by
  rw [fourierKernel, fourierKernel, fourierKernel, ← Complex.exp_add]
  congr 1
  push_cast
  ring

theorem fourierKernel_zero (D : ℕ) : fourierKernel D 0 = 1 := by
  simp [fourierKernel]

theorem fourierKernel_nat_pow (D : ℕ) (m : ℤ) (k : ℕ) :
    fourierKernel D ((k : ℤ) * m) = fourierKernel D m ^ k := by
  rw [fourierKernel, fourierKernel, ← Complex.exp_nat_mul]
  congr 1
  push_cast
  ring

theorem fourierKernel_dvd (D : ℕ) (m : ℤ) (h : (D : ℤ) ∣ m) : fourierKernel D m = 1 := by
  rcases Nat.eq_zero_or_pos D with hD | hD
  · subst hD
    rw [fourierKernel]
    norm_num
  · obtain ⟨q, rfl⟩ := h
    rw [fourierKernel]
    have harg : 2 * (Real.pi : ℂ) * Complex.I * ((D : ℤ) * q : ℤ) / (D : ℂ) =
        (q : ℂ) * (2 * (Real.pi : ℂ) * Complex.I) := by
      have hDne : (D : ℂ) ≠ 0 := Nat.cast_ne_zero.mpr (Nat.pos_iff_ne_zero.mp hD)
      field_simp
      ring
    rw [harg, Complex.exp_int_mul_two_pi_mul_I]

theorem fourierKernel_ne_one (D : ℕ) (hD : 0 < D) (m : ℤ) (h : ¬ (D : ℤ) ∣ m) :
    fourierKernel D m ≠ 1 := by
  intro hone
  rw [fourierKernel, Complex.exp_eq_one_iff] at hone
  obtain ⟨q, hq⟩ := hone
  apply h
  refine ⟨q, ?_⟩
  have hDne : (D : ℂ) ≠ 0 := Nat.cast_ne_zero.mpr (Nat.pos_iff_ne_zero.mp hD)
  have h2pi : (2 : ℂ) * (Real.pi : ℂ) * Complex.I ≠ 0 := by
    refine mul_ne_zero (mul_ne_zero two_ne_zero ?_) Complex.I_ne_zero
    exact Complex.ofReal_ne_zero.mpr Real.pi_ne_zero
  have hm : (m : ℂ) = (D : ℂ) * (q : ℂ) := by
    have h1 : 2 * (Real.pi : ℂ) * Complex.I * (m : ℂ) =
        (q : ℂ) * (2 * (Real.pi : ℂ) * Complex.I) * (D : ℂ) := by
      field_simp at hq
      linear_combination hq
    have h2 : (2 * (Real.pi : ℂ) * Complex.I) * (m : ℂ) =
        (2 * (Real.pi : ℂ) * Complex.I) * ((D : ℂ) * (q : ℂ)) := by
      linear_combination h1
    exact mul_left_cancel₀ h2pi h2
  exact_mod_cast hm

/-- Orthogonality of the discrete Fourier kernel: summing `ω^{km}` over one
period yields `D` when `D ∣ m` and `0` otherwise. -/
theorem fourierKernel_orthogonal_sum (D : ℕ) (hD : 0 < D) (m : ℤ) :
    ∑ k : Fin D, fourierKernel D ((k : ℤ) * m) =
      if (D : ℤ) ∣ m then (D : ℂ) else 0 := by
  by_cases hdvd : (D : ℤ) ∣ m
  · rw [if_pos hdvd]
    have hterm : ∀ k : Fin D, fourierKernel D ((k : ℤ) * m) = 1 := by
      intro k
      exact fourierKernel_dvd D _ (Dvd.dvd.mul_left hdvd _)
    simp [hterm]
  · rw [if_neg hdvd]
    have hne : fourierKernel D m ≠ 1 := fourierKernel_ne_one D hD m hdvd
    have hpow : ∀ k : Fin D, fourierKernel D ((k : ℤ) * m) = fourierKernel D m ^ (k : ℕ) :=
      fun k => fourierKernel_nat_pow D m k
    rw [Finset.sum_congr rfl fun k _ => hpow k]
    rw [Fin.sum_univ_eq_sum_range (fun k => fourierKernel D m ^ k)]
    rw [geom_sum_eq hne]
    have hD1 : fourierKernel D m ^ D = 1 := by
      rw [← fourierKernel_nat_pow]
      exact fourierKernel_dvd D _ (Dvd.intro m rfl)
    rw [hD1]
    simp

/-- For indices `i, j < D`, the period `D` divides `j - i` exactly when the
indices agree. -/
theorem fin_dvd_iff (D : ℕ) (i j : Fin D) :
    (D : ℤ) ∣ ((j : ℤ) - (i : ℤ)) ↔ i = j := by
  constructor
  · rintro ⟨q, hq⟩
    have hi : (i : ℤ) < D := by exact_mod_cast i.isLt
    have hj : (j : ℤ) < D := by exact_mod_cast j.isLt
    have hi0 : (0 : ℤ) ≤ (i : ℤ) := by positivity
    have hj0 : (0 : ℤ) ≤ (j : ℤ) := by positivity
    have hq0 : q = 0 := by
      by_contra hq0
      have h2 : 1 ≤ |q| := Int.one_le_abs hq0
      have hDpos : (0 : ℤ) < D := by linarith
      have h3 : (D : ℤ) ≤ |(D : ℤ) * q| := by
        rw [abs_mul, abs_of_nonneg (le_of_lt hDpos)]
        nlinarith
      rw [← hq] at h3
      have habs : |(j : ℤ) - i| < D := by
        rw [abs_lt]
        constructor <;> linarith
      linarith
    rw [hq0, mul_zero, sub_eq_zero] at hq
    have : (i : ℕ) = (j : ℕ) := by exact_mod_cast hq.symm
    exact Fin.ext this
  · rintro rfl
    simp

/-- `ifft ∘ fft` on one lane multiplies by `D` (unnormalized round
trip). -/
theorem ifft_fft_lane (D : ℕ) (hD : 0 < D) (x : Fin D → ℂ) (j : Fin D) :
    ifftProcessLane D (fftProcessLane D x) j = (D : ℂ) * x j := by
  unfold ifftProcessLane fftProcessLane
  have h1 : ∀ jp : Fin D,
      (∑ i : Fin D, x i * fourierKernel D (-((i : ℕ) * (jp : ℕ) : ℕ))) *
          fourierKernel D ((jp : ℕ) * (j : ℕ) : ℕ) =
        ∑ i : Fin D, x i * fourierKernel D ((jp : ℤ) * ((j : ℤ) - (i : ℤ))) := by
    intro jp
    rw [Finset.sum_mul]
    refine Finset.sum_congr rfl fun i _ => ?_
    rw [mul_assoc, ← fourierKernel_add]
    congr 2
    push_cast
    ring
  rw [Finset.sum_congr rfl fun jp _ => h1 jp, Finset.sum_comm]
  have h2 : ∀ i : Fin D,
      ∑ jp : Fin D, x i * fourierKernel D ((jp : ℤ) * ((j : ℤ) - (i : ℤ))) =
        x i * (if (D : ℤ) ∣ ((j : ℤ) - (i : ℤ)) then (D : ℂ) else 0) := by
    intro i
    rw [← Finset.mul_sum, fourierKernel_orthogonal_sum D hD]
  rw [Finset.sum_congr rfl fun i _ => h2 i]
  have h3 : ∀ i : Fin D,
      x i * (if (D : ℤ) ∣ ((j : ℤ) - (i : ℤ)) then (D : ℂ) else 0) =
        if i = j then x i * (D : ℂ) else 0 := by
    intro i
    by_cases hij : i = j
    · rw [if_pos ((fin_dvd_iff D i j).mpr hij), if_pos hij]
    · rw [if_neg (fun hdvd => hij ((fin_dvd_iff D i j).mp hdvd)), if_neg hij, mul_zero]
  rw [Finset.sum_congr rfl fun i _ => h3 i,
    Finset.sum_ite_eq' Finset.univ j fun i => x i * (D : ℂ)]
  simp [mul_comm]

/-- `fft ∘ ifft` on one lane multiplies by `D` (unnormalized round
trip). -/
theorem fft_ifft_lane (D : ℕ) (hD : 0 < D) (x : Fin D → ℂ) (j : Fin D) :
    fftProcessLane D (ifftProcessLane D x) j = (D : ℂ) * x j := by
  unfold fftProcessLane ifftProcessLane
  have h1 : ∀ jp : Fin D,
      (∑ i : Fin D, x i * fourierKernel D ((i : ℕ) * (jp : ℕ) : ℕ)) *
          fourierKernel D (-((jp : ℕ) * (j : ℕ) : ℕ)) =
        ∑ i : Fin D, x i * fourierKernel D ((jp : ℤ) * ((i : ℤ) - (j : ℤ))) := by
    intro jp
    rw [Finset.sum_mul]
    refine Finset.sum_congr rfl fun i _ => ?_
    rw [mul_assoc, ← fourierKernel_add]
    congr 2
    push_cast
    ring
  rw [Finset.sum_congr rfl fun jp _ => h1 jp, Finset.sum_comm]
  have h2 : ∀ i : Fin D,
      ∑ jp : Fin D, x i * fourierKernel D ((jp : ℤ) * ((i : ℤ) - (j : ℤ))) =
        x i * (if (D : ℤ) ∣ ((i : ℤ) - (j : ℤ)) then (D : ℂ) else 0) := by
    intro i
    rw [← Finset.mul_sum, fourierKernel_orthogonal_sum D hD]
  rw [Finset.sum_congr rfl fun i _ => h2 i]
  have h3 : ∀ i : Fin D,
      x i * (if (D : ℤ) ∣ ((i : ℤ) - (j : ℤ)) then (D : ℂ) else 0) =
        if i = j then x i * (D : ℂ) else 0 := by
    intro i
    by_cases hij : i = j
    · rw [if_pos ((fin_dvd_iff D j i).mpr hij.symm), if_pos hij]
    · rw [if_neg (fun hdvd => hij ((fin_dvd_iff D j i).mp hdvd).symm), if_neg hij, mul_zero]
  rw [Finset.sum_congr rfl fun i _ => h3 i,
    Finset.sum_ite_eq' Finset.univ j fun i => x i * (D : ℂ)]
  simp [mul_comm]

theorem ifftProcessLane_div (D : ℕ) (y : Fin D → ℂ) (c : ℂ) (j : Fin D) :
    ifftProcessLane D (fun k => y k / c) j = ifftProcessLane D y j / c := by
  unfold ifftProcessLane
  simp only [div_mul_eq_mul_div]
  rw [← Finset.sum_div]

theorem fftProcessLane_div (D : ℕ) (y : Fin D → ℂ) (c : ℂ) (j : Fin D) :
    fftProcessLane D (fun k => y k / c) j = fftProcessLane D y j / c := by
  unfold fftProcessLane
  simp only [div_mul_eq_mul_div]
  rw [← Finset.sum_div]

theorem sqrt_mul_self_complex (D : ℕ) :
    Complex.ofReal (Real.sqrt (D : ℝ)) * Complex.ofReal (Real.sqrt (D : ℝ)) = (D : ℂ) := by
  rw [← Complex.ofReal_mul, Real.mul_self_sqrt (Nat.cast_nonneg D)]
  norm_cast

/-- `dimension_size` of a freshly built FFT transformation is the momenta
count `D/2 + D/2` of the shadowed momentum grid. -/
theorem fftNew_dimensionSize (g : Grid) (tname : String) :
    (FFTTransformationS.new g tname).dimensionSize = g.nodesNo / 2 + g.nodesNo / 2 := by
  show (fftMomenta g).length = _
  exact fftMomenta_length g

/-- For a source grid of even length, `dimension_size` coincides with the
lane length. -/
theorem fftNew_dimensionSize_even (g : Grid) (tname : String) (he : g.nodesNo % 2 = 0) :
    (FFTTransformationS.new g tname).dimensionSize = g.nodesNo := by
  rw [fftNew_dimensionSize]
  omega

/-- When `dimension_size` equals the lane length, the normalized pair is an
exact round trip, lane level: `inverse_transform (transform x) = x`. -/
theorem fft_lane_round_trip_inv (t : FFTTransformationS) (D : ℕ)
    (hsz : t.dimensionSize = D) (x : Fin D → ℂ) :
    t.inverseTransformLane D (t.transformLane D x) = x := by
  funext j
  have hD : 0 < D := j.pos
  have hDc : (D : ℂ) ≠ 0 := Nat.cast_ne_zero.mpr (Nat.pos_iff_ne_zero.mp hD)
  unfold FFTTransformationS.inverseTransformLane FFTTransformationS.transformLane
  simp only [hsz]
  rw [ifftProcessLane_div, ifft_fft_lane D hD, div_div, sqrt_mul_self_complex]
  field_simp

/-- When `dimension_size` equals the lane length, the normalized pair is an
exact round trip, lane level: `transform (inverse_transform x) = x`. -/
theorem fft_lane_round_trip_fwd (t : FFTTransformationS) (D : ℕ)
    (hsz : t.dimensionSize = D) (x : Fin D → ℂ) :
    t.transformLane D (t.inverseTransformLane D x) = x := by
  funext j
  have hD : 0 < D := j.pos
  have hDc : (D : ℂ) ≠ 0 := Nat.cast_ne_zero.mpr (Nat.pos_iff_ne_zero.mp hD)
  unfold FFTTransformationS.inverseTransformLane FFTTransformationS.transformLane
  simp only [hsz]
  rw [fftProcessLane_div, fft_ifft_lane D hD, div_div, sqrt_mul_self_complex]
  field_simp

theorem fourierKernel_conj (D : ℕ) (m : ℤ) :
    (starRingEnd ℂ) (fourierKernel D m) = fourierKernel D (-m) := by
  rw [fourierKernel, fourierKernel, ← Complex.exp_conj]
  congr 1
  simp [map_div₀, map_ofNat, Complex.conj_ofReal, Complex.conj_I]

theorem fftProcessLane_conj (D : ℕ) (x : Fin D → ℂ) (k : Fin D) :
    (starRingEnd ℂ) (fftProcessLane D x k) =
      ifftProcessLane D (fun i => (starRingEnd ℂ) (x i)) k := by
  unfold fftProcessLane ifftProcessLane
  rw [map_sum]
  refine Finset.sum_congr rfl fun i _ => ?_
  rw [map_mul, fourierKernel_conj, neg_neg]

/-- Unnormalized Parseval: the `ℓ²` mass of the raw DFT is `D` times that
of the input. -/
theorem parseval_process (D : ℕ) (hD : 0 < D) (x : Fin D → ℂ) :
    ∑ k : Fin D, fftProcessLane D x k * (starRingEnd ℂ) (fftProcessLane D x k) =
      (D : ℂ) * ∑ i : Fin D, x i * (starRingEnd ℂ) (x i) := by
  have h1 : ∀ k : Fin D, fftProcessLane D x k * (starRingEnd ℂ) (fftProcessLane D x k) =
      ∑ i : Fin D, x i * fourierKernel D (-((i : ℕ) * (k : ℕ) : ℕ)) *
        ifftProcessLane D (fun i => (starRingEnd ℂ) (x i)) k := by
    intro k
    rw [fftProcessLane_conj]
    unfold fftProcessLane
    rw [Finset.sum_mul]
  rw [Finset.sum_congr rfl fun k _ => h1 k, Finset.sum_comm]
  have h2 : ∀ i : Fin D,
      ∑ k : Fin D, x i * fourierKernel D (-((i : ℕ) * (k : ℕ) : ℕ)) *
          ifftProcessLane D (fun i => (starRingEnd ℂ) (x i)) k =
        x i * fftProcessLane D (ifftProcessLane D fun i => (starRingEnd ℂ) (x i)) i := by
    intro i
    unfold fftProcessLane
    rw [Finset.mul_sum]
    refine Finset.sum_congr rfl fun k _ => ?_
    rw [show ((k : ℕ) * (i : ℕ) : ℕ) = ((i : ℕ) * (k : ℕ) : ℕ) from Nat.mul_comm _ _]
    ring
  rw [Finset.sum_congr rfl fun i _ => h2 i]
  rw [Finset.sum_congr rfl fun i _ =>
    congrArg (fun z => x i * z) (fft_ifft_lane D hD (fun i => (starRingEnd ℂ) (x i)) i)]
  rw [Finset.mul_sum]
  refine Finset.sum_congr rfl fun i _ => ?_
  ring

/-- Parseval for the normalized forward transform when `dimension_size`
equals the lane length: the `ℓ²` norm of a lane is preserved. -/
theorem parseval_transform_lane (t : FFTTransformationS) (D : ℕ)
    (hsz : t.dimensionSize = D) (x : Fin D → ℂ) :
    ∑ k : Fin D, Complex.normSq (t.transformLane D x k) =
      ∑ i : Fin D, Complex.normSq (x i) := by
  rcases Nat.eq_zero_or_pos D with hD | hD
  · subst hD
    simp
  · have hDr : ((D : ℝ)) ≠ 0 := Nat.cast_ne_zero.mpr (Nat.pos_iff_ne_zero.mp hD)
    have hsq : ∀ k : Fin D, Complex.normSq (t.transformLane D x k) =
        Complex.normSq (fftProcessLane D x k) / (D : ℝ) := by
      intro k
      unfold FFTTransformationS.transformLane
      rw [hsz, Complex.normSq_div, Complex.normSq_ofReal,
        Real.mul_self_sqrt (Nat.cast_nonneg D)]
    rw [Finset.sum_congr rfl fun k _ => hsq k, ← Finset.sum_div]
    have hpar := parseval_process D hD x
    have hreal : ∑ k : Fin D, Complex.normSq (fftProcessLane D x k) =
        (D : ℝ) * ∑ i : Fin D, Complex.normSq (x i) := by
      have hC : ((∑ k : Fin D, Complex.normSq (fftProcessLane D x k) : ℝ) : ℂ) =
          (((D : ℝ) * ∑ i : Fin D, Complex.normSq (x i) : ℝ) : ℂ) := by
        push_cast
        simp only [← Complex.mul_conj]
        exact hpar
      exact_mod_cast hC
    rw [hreal, mul_comm, mul_div_assoc, div_self hDr, mul_one]

/-- Claim C6, counterexample: on the target axis built from the odd-length
three-node grid, `dimension_size` is the momenta count `2`, so both
directions divide by `√2` rather than `√3`, and the round trip scales
every element by `3/2`: the all-ones tensor is not recovered. -/
theorem c6_counterexample :
    (FFTTransformationS.new gridThree "p").inverseTransformTensor 3
        ((FFTTransformationS.new gridThree "p").transformTensor 3 threeOnesTensor) ≠
      threeOnesTensor := by
  intro h
  have hsz : (FFTTransformationS.new gridThree "p").dimensionSize = 2 := by
    rw [fftNew_dimensionSize]
    rfl
  have hval := congrFun (congrFun h ()) 0
  have hcomp : (FFTTransformationS.new gridThree "p").inverseTransformTensor 3
      ((FFTTransformationS.new gridThree "p").transformTensor 3 threeOnesTensor) () 0 =
      (3 : ℂ) / 2 := by
    show (FFTTransformationS.new gridThree "p").inverseTransformLane 3
      ((FFTTransformationS.new gridThree "p").transformLane 3 (threeOnesTensor ())) 0 =
        (3 : ℂ) / 2
    unfold FFTTransformationS.inverseTransformLane FFTTransformationS.transformLane
    simp only [hsz]
    rw [ifftProcessLane_div, ifft_fft_lane 3 (by norm_num), div_div, sqrt_mul_self_complex]
    norm_num [threeOnesTensor]
  rw [hval] at hcomp
  have : threeOnesTensor () 0 = 1 := rfl
  rw [this] at hcomp
  norm_num at hcomp

/-- Claim C6 (amended): for every complex tensor and every target axis
built from a source grid of even length `D ≥ 2` — there the
transformation's `dimension_size` equals `D` — the FFT forward and inverse
transformations each divide every output element by `√D`, and the pair is
a unitary exact round trip: `inverse(forward(x)) = x` and
`forward(inverse(x)) = x` elementwise (exactly, over the idealised reals),
with the `ℓ²` norm of the tensor preserved. -/
theorem c6_fft_unitary_round_trip {ι : Type} [Fintype ι] (g : Grid) (tname : String)
    (he : g.nodesNo % 2 = 0) (h2 : 2 ≤ g.nodesNo) (a : ι → Fin g.nodesNo → ℂ) :
    (FFTTransformationS.new g tname).inverseTransformTensor g.nodesNo
        ((FFTTransformationS.new g tname).transformTensor g.nodesNo a) = a ∧
    (FFTTransformationS.new g tname).transformTensor g.nodesNo
        ((FFTTransformationS.new g tname).inverseTransformTensor g.nodesNo a) = a ∧
    (∀ l k, (FFTTransformationS.new g tname).transformTensor g.nodesNo a l k =
        fftProcessLane g.nodesNo (a l) k / Complex.ofReal (Real.sqrt (g.nodesNo : ℝ)) ∧
      (FFTTransformationS.new g tname).inverseTransformTensor g.nodesNo a l k =
        ifftProcessLane g.nodesNo (a l) k / Complex.ofReal (Real.sqrt (g.nodesNo : ℝ))) ∧
    ∑ l : ι, ∑ k : Fin g.nodesNo,
        Complex.normSq ((FFTTransformationS.new g tname).transformTensor g.nodesNo a l k) =
      ∑ l : ι, ∑ k : Fin g.nodesNo, Complex.normSq (a l k) := by
  have hsz := fftNew_dimensionSize_even g tname he
  refine ⟨?_, ?_, fun l k => ?_, ?_⟩
  · funext l
    exact fft_lane_round_trip_inv _ _ hsz (a l)
  · funext l
    exact fft_lane_round_trip_fwd _ _ hsz (a l)
  · constructor
    · show (FFTTransformationS.new g tname).transformLane g.nodesNo (a l) k = _
      unfold FFTTransformationS.transformLane
      rw [hsz]
    · show (FFTTransformationS.new g tname).inverseTransformLane g.nodesNo (a l) k = _
      unfold FFTTransformationS.inverseTransformLane
      rw [hsz]
  · exact Finset.sum_congr rfl fun l _ => parseval_transform_lane _ _ hsz (a l)

/-- Claim C6, witness: the even four-node grid satisfies the amended
claim, and the round trip restores the all-ones tensor. -/
theorem c6_witness :
    gridFour.nodesNo % 2 = 0 ∧ 2 ≤ gridFour.nodesNo ∧
      (FFTTransformationS.new gridFour "p").inverseTransformTensor gridFour.nodesNo
          ((FFTTransformationS.new gridFour "p").transformTensor gridFour.nodesNo
            fourOnesTensor) = fourOnesTensor :=
  ⟨rfl, by norm_num [gridFour, Grid.newCustom],
    (c6_fft_unitary_round_trip gridFour "p" rfl
      (by norm_num [gridFour, Grid.newCustom]) fourOnesTensor).1⟩

end SplitOp

